import Mathlib

/-!
# Verification of the tree-widget core (`tui-rs-tree-widget`)

Shallow embedding of `src/lib.rs`: the navigation state (`TreeState`),
tree items (`TreeItem`), and the viewport windowing performed by the
stateful render of `Tree`.  The `flatten` and `identifier` modules are
declared in `lib.rs` (`mod flatten; mod identifier;`) but their source
files are not in the repository snapshot, so those two pieces are
modelled from the specification (§4.1, §4.2).

Machine integers (`usize`) are modelled as `Nat`; Rust's
`saturating_sub` coincides with truncated `Nat` subtraction and
`saturating_add` with `Nat` addition.  The `HashSet<TreeIdentifierVec>`
of opened identifiers is modelled as a `Finset (List ℕ)` (the set is
only ever queried for membership, inserted into, erased from, compared
and cleared, so hashing order is irrelevant).  Buffer drawing, styles
and blocks are external collaborators (spec §6) and do not touch
`TreeState`; only the state effects of `render` are embedded.
-/

namespace TuiTree

/-- Identifier of a tree node: path of child indices from the root
(Rust `TreeIdentifierVec = Vec<usize>`). -/
abbrev TreeIdentifierVec := List Nat

/-- `TreeItem<A>` from `src/lib.rs`: a payload and an ordered list of
owned children.  The `style` field never influences state or
windowing, so it is omitted from the embedding. -/
inductive TreeItem (A : Type) where
  | node (elem : A) (children : List (TreeItem A))

variable {A : Type}

/-- Payload accessor (`TreeItem::elem`). -/
def TreeItem.elem : TreeItem A → A
  | .node e _ => e

/-- Children accessor (`TreeItem::children`). -/
def TreeItem.children : TreeItem A → List (TreeItem A)
  | .node _ cs => cs

/-- `TreeItem::height` delegates to the payload capability
`elem.as_text().height()`; the external measurement is passed in as
`textHeight`. -/
def TreeItem.height (textHeight : A → Nat) (t : TreeItem A) : Nat :=
  textHeight t.elem

/-- Modelled from the spec: the `flatten` module (`mod flatten`) is not
in `src/`; §3 describes `FlattenedEntry` as carrying the node's
identifier and its depth alongside a reference to the item. -/
structure Flattened (A : Type) where
  identifier : TreeIdentifierVec
  depth : Nat
  item : TreeItem A

mutual

/-- Modelled from the spec: the `flatten` module is not in `src/`.
§4.2: a node emitted at identifier `p`; if `p ∈ expanded`, its
children are emitted recursively at `p + [childIndex]`, depth+1, in
child order; otherwise its children are omitted. -/
def flattenNode (opened : Finset TreeIdentifierVec) (ident : TreeIdentifierVec)
    (depth : Nat) : TreeItem A → List (Flattened A)
  | .node e cs =>
    ⟨ident, depth, .node e cs⟩ ::
      (if ident ∈ opened then flattenForest opened ident (depth + 1) 0 cs else [])

/-- Modelled from the spec: pre-order traversal over a forest, the
`i`-th tree getting identifier `pre + [idx + i]`. -/
def flattenForest (opened : Finset TreeIdentifierVec) (pre : TreeIdentifierVec)
    (depth : Nat) (idx : Nat) : List (TreeItem A) → List (Flattened A)
  | [] => []
  | t :: ts =>
    flattenNode opened (pre ++ [idx]) depth t ++ flattenForest opened pre depth (idx + 1) ts

end

/-- Modelled from the spec: `flatten(opened, items)` — §4.2, every root
node is emitted (identifier `[i]`, depth 0). -/
def flatten (opened : Finset TreeIdentifierVec) (items : List (TreeItem A)) :
    List (Flattened A) :=
  flattenForest opened [] 0 0 items

/-- Modelled from the spec: the `identifier` module is not in `src/`.
§4.1: `parentOf(id)` drops the last path segment, returning the head
together with the dropped last index; the empty identifier maps to the
empty identifier. -/
def get_without_leaf (identifier : TreeIdentifierVec) :
    TreeIdentifierVec × Option Nat :=
  (identifier.dropLast, identifier.getLast?)

/-- `TreeState` from `src/lib.rs` (offset, opened, selected). -/
structure TreeState where
  offset : Nat
  opened : Finset TreeIdentifierVec
  selected : TreeIdentifierVec
deriving DecidableEq

/-- `TreeState::default()`. -/
def TreeState.default : TreeState := ⟨0, ∅, []⟩

/-- `TreeState::select`: store the identifier verbatim; if it is empty,
also reset the offset to 0. -/
def TreeState.select (s : TreeState) (identifier : TreeIdentifierVec) : TreeState :=
  let s' := { s with selected := identifier }
  if s'.selected = [] then { s' with offset := 0 } else s'

/-- `TreeState::open`: refuse the empty identifier (return `false`),
otherwise insert and report whether the identifier was newly
inserted. -/
def TreeState.openNode (s : TreeState) (identifier : TreeIdentifierVec) :
    Bool × TreeState :=
  if identifier = [] then (false, s)
  else (decide (identifier ∉ s.opened), { s with opened := insert identifier s.opened })

/-- `TreeState::close`: remove the identifier, reporting whether it was
present. -/
def TreeState.close (s : TreeState) (identifier : TreeIdentifierVec) :
    Bool × TreeState :=
  (decide (identifier ∈ s.opened), { s with opened := s.opened.erase identifier })

/-- `TreeState::toggle`: close when present, open otherwise. -/
def TreeState.toggle (s : TreeState) (identifier : TreeIdentifierVec) : TreeState :=
  if identifier ∈ s.opened then (s.close identifier).2 else (s.openNode identifier).2

/-- `TreeState::toggle_selected`. -/
def TreeState.toggle_selected (s : TreeState) : TreeState :=
  s.toggle s.selected

/-- `TreeState::close_all`. -/
def TreeState.close_all (s : TreeState) : TreeState :=
  { s with opened := ∅ }

/-- `TreeState::select_first`. -/
def TreeState.select_first (s : TreeState) : TreeState :=
  s.select [0]

/-- `TreeState::select_last`: select the identifier of the last visible
entry, or the empty identifier on an empty flattened sequence. -/
def TreeState.select_last (s : TreeState) (items : List (TreeItem A)) : TreeState :=
  let visible := flatten s.opened items
  s.select ((visible.getLast?.map (fun o => o.identifier)).getD [])

/-- `TreeState::key_up`: find the selection in the flattened sequence;
fall back to index 0 when absent, otherwise `saturating_sub 1` then
`min (len - 1)`.  Rust indexes `visible[new_index]` directly (a panic
when out of bounds); the embedding returns the state unchanged on that
(unreachable for non-empty `visible`) branch. -/
def TreeState.key_up (s : TreeState) (items : List (TreeItem A)) : TreeState :=
  let visible := flatten s.opened items
  let currentIndex := visible.findIdx? (fun o => o.identifier = s.selected)
  let newIndex :=
    match currentIndex with
    | none => 0
    | some i => min (i - 1) (visible.length - 1)
  match visible.get? newIndex with
  | some o => s.select o.identifier
  | none => s

/-- `TreeState::key_down`: like `key_up` with `saturating_add 1`. -/
def TreeState.key_down (s : TreeState) (items : List (TreeItem A)) : TreeState :=
  let visible := flatten s.opened items
  let currentIndex := visible.findIdx? (fun o => o.identifier = s.selected)
  let newIndex :=
    match currentIndex with
    | none => 0
    | some i => min (i + 1) (visible.length - 1)
  match visible.get? newIndex with
  | some o => s.select o.identifier
  | none => s

/-- `TreeState::key_left`: close the selection; if nothing was closed,
select the parent identifier instead. -/
def TreeState.key_left (s : TreeState) : TreeState :=
  let selected := s.selected
  let c := s.close selected
  if c.1 then c.2
  else c.2.select (get_without_leaf selected).1

/-- `TreeState::key_right`: open the selection. -/
def TreeState.key_right (s : TreeState) : TreeState :=
  (s.openNode s.selected).2

/-! ## The viewport windower (`StatefulWidget::render` for `Tree`, lines 360–381)

The render pass keeps a running `height` equal to the cumulative height
of the current window `visible[start..end]`; the embedding carries that
window as an explicit list (`window`, with `window.sum` playing the role
of `height`) together with the not-yet-absorbed suffix `rest`
(`visible[end..]`), which also provides the termination measures of the
two `while` loops. -/

/-- Inner loop of the render pass:
`while height > available { height -= visible[start].height; start += 1 }`.
The window is `visible[start..end]`; dropping its head advances
`start`. -/
def evictFront (available : Nat) : List Nat → Nat → List Nat × Nat
  | [], start => ([], start)
  | x :: w, start =>
    if x + w.sum > available then evictFront available w (start + 1)
    else (x :: w, start)

/-- First loop of the render pass: starting from cumulative height
`acc`, the number of further entries absorbed before
`height + item.height > available` breaks the loop. -/
def takeFit (available : Nat) : Nat → List Nat → Nat
  | _, [] => 0
  | acc, x :: xs => if acc + x > available then 0 else takeFit available (acc + x) xs + 1

/-- Outer loop of the render pass:
`while selected_index >= end { height += visible[end].height; end += 1; <evict> }`.
`window` is `visible[start..end]`, `rest` is `visible[end..]`; Rust's
`visible[end]` is `rest`'s head (the loop never runs with empty `rest`
when `selected_index < visible.len()`, and the `[]` branch mirrors the
state Rust would panic from). -/
def slide (available selectedIndex : Nat) :
    Nat → Nat → List Nat → List Nat → Nat × Nat
  | start, e, _, [] => (start, e)
  | start, e, window, x :: rest =>
    if selectedIndex ≥ e then
      let we := evictFront available (window ++ [x]) start
      slide available selectedIndex we.2 (e + 1) we.1 rest
    else (start, e)

/-- The window `(start, end)` computed by the render pass of `Tree`
from the per-entry heights, the row budget (`available_height`), the
previous offset and the resolved selected index (lines 360–379 of
`src/lib.rs`). -/
def computeWindow (heights : List Nat) (available offset selectedIndex : Nat) :
    Nat × Nat :=
  let start := min offset selectedIndex
  let rest0 := heights.drop start
  let k := takeFit available 0 rest0
  slide available selectedIndex start (start + k) (rest0.take k) (rest0.drop k)



/-- State effect of `StatefulWidget::render` for `Tree`
(lines 331–381 of `src/lib.rs`): after the early returns for a
degenerate drawing area (`area.width < 1 || area.height < 1`, the area
being the inner area once the optional block is removed) and for an
empty flattened sequence, the selection is resolved to an index
(`0` for an empty or unresolvable selection), the window is computed
and `state.offset` is set to its start.  Drawing into the buffer is
external and touches no state. -/
def renderTree (textHeight : A → Nat) (items : List (TreeItem A))
    (width height : Nat) (s : TreeState) : TreeState :=
  if width < 1 ∨ height < 1 then s
  else
    let visible := flatten s.opened items
    if visible.isEmpty then s
    else
      let availableHeight := height
      let selectedIndex :=
        if s.selected = [] then 0
        else ((visible.findIdx? (fun o => o.identifier = s.selected)).getD 0)
      let heights := visible.map (fun o => o.item.height textHeight)
      let sw := computeWindow heights availableHeight s.offset selectedIndex
      { s with offset := sw.1 }

/-- Modelled from the spec (§4.1): resolve an identifier suffix inside a
node, walking one child index per depth level and failing on an
out-of-bounds index.  (`resolve` is specified in §4.1; the `identifier`
module that would implement it is not in `src/`.) -/
def resolveIn (t : TreeItem A) : List Nat → Option (TreeItem A)
  | [] => some t
  | i :: is =>
    match t.children[i]? with
    | some c => resolveIn c is
    | none => none

/-- Modelled from the spec (§4.1): `resolve(tree, id)`; the empty
identifier addresses no node. -/
def resolve (ts : List (TreeItem A)) : TreeIdentifierVec → Option (TreeItem A)
  | [] => none
  | i :: is =>
    match ts[i]? with
    | some t => resolveIn t is
    | none => none

/-- The characterisation of the flattened output: an entry is emitted
exactly when its identifier resolves to its item, its depth is one less
than its path length, and every proper non-empty prefix of its
identifier (i.e. every proper ancestor) is in the expanded-set. -/
def emittedSpec (opened : Finset TreeIdentifierVec) (ts : List (TreeItem A))
    (x : Flattened A) : Prop :=
  resolve ts x.identifier = some x.item ∧
  x.identifier ≠ [] ∧
  x.identifier.length = x.depth + 1 ∧
  ∀ r, r <+: x.identifier → r ≠ [] → r ≠ x.identifier → r ∈ opened

/-- The demonstration tree of spec §8 Scenario A: root `R` with
children `a` and `b`, where `b` has child `c`. -/
def demoTree : List (TreeItem String) :=
  [.node "R" [.node "a" [], .node "b" [.node "c" []]]]

/-! ## Basic lemmas about the state operations -/

theorem TreeState.select_selected (s : TreeState) (id : TreeIdentifierVec) :
    (s.select id).selected = id := by
  unfold TreeState.select
  by_cases h : id = [] <;> simp [h]

theorem TreeState.select_opened (s : TreeState) (id : TreeIdentifierVec) :
    (s.select id).opened = s.opened := by
  unfold TreeState.select
  by_cases h : id = [] <;> simp [h]

theorem List.dropLast_of_length_le_one {α : Type} {l : List α} (h : l.length ≤ 1) :
    l.dropLast = [] := by
  match l with
  | [] => rfl
  | [a] => rfl
  | a :: b :: t => simp at h

theorem findIdx?_some_lt {α : Type} {p : α → Bool} :
    ∀ {l : List α} {i : Nat}, l.findIdx? p = some i → i < l.length := by
  intro l
  induction l with
  | nil => intro i h; simp [List.findIdx?] at h
  | cons x xs ih =>
    intro i h
    rw [List.findIdx?_cons] at h
    by_cases hp : p x
    · simp [hp] at h
      simp [← h]
    · simp [hp] at h
      obtain ⟨j, hj, rfl⟩ := h
      have := ih hj
      simp
      omega

theorem findIdx?_some_get {α : Type} {p : α → Bool} :
    ∀ {l : List α} {i : Nat}, l.findIdx? p = some i →
      ∃ x, l[i]? = some x ∧ p x = true := by
  intro l
  induction l with
  | nil => intro i h; simp [List.findIdx?] at h
  | cons x xs ih =>
    intro i h
    rw [List.findIdx?_cons] at h
    by_cases hp : p x
    · simp [hp] at h
      exact ⟨x, by simp [← h], hp⟩
    · simp [hp] at h
      obtain ⟨j, hj, rfl⟩ := h
      obtain ⟨y, hy, hpy⟩ := ih hj
      exact ⟨y, by simpa using hy, hpy⟩

theorem exists_get?_of_lt {α : Type} {l : List α} {n : Nat} (h : n < l.length) :
    ∃ x, l[n]? = some x := by
  induction l generalizing n with
  | nil => simp at h
  | cons a t ih =>
    match n with
    | 0 => exact ⟨a, by simp⟩
    | n + 1 =>
      obtain ⟨x, hx⟩ := ih (by simpa using h)
      exact ⟨x, by simpa using hx⟩

/-! ## Lemmas about the viewport windower -/

theorem evictFront_sum_le (a : Nat) :
    ∀ (w : List Nat) (s : Nat), ((evictFront a w s).1).sum ≤ a := by
  intro w
  induction w with
  | nil => intro s; simp [evictFront]
  | cons x w ih =>
    intro s
    simp only [evictFront]
    by_cases h : x + w.sum > a
    · rw [if_pos h]
      exact ih (s + 1)
    · rw [if_neg h]
      simp only [List.sum_cons]
      omega

theorem evictFront_eq_drop (a : Nat) :
    ∀ (w : List Nat) (s : Nat),
      ∃ k, k ≤ w.length ∧ evictFront a w s = (w.drop k, s + k) := by
  intro w
  induction w with
  | nil => intro s; exact ⟨0, by simp [evictFront]⟩
  | cons x w ih =>
    intro s
    by_cases h : x + w.sum > a
    · obtain ⟨k, hk, he⟩ := ih (s + 1)
      refine ⟨k + 1, by simp; omega, ?_⟩
      simp only [evictFront]
      rw [if_pos h, he]
      have h2 : s + 1 + k = s + (k + 1) := by omega
      rw [h2]
      rfl
    · refine ⟨0, by simp, ?_⟩
      simp only [evictFront]
      rw [if_neg h]
      simp

theorem evictFront_last_ne_nil (a x : Nat) (hx : x ≤ a) :
    ∀ (w : List Nat) (s : Nat), (evictFront a (w ++ [x]) s).1 ≠ [] := by
  intro w
  induction w with
  | nil =>
    intro s
    have h : ¬ (x + List.sum ([] : List Nat) > a) := by simp; omega
    simp only [List.nil_append, evictFront]
    rw [if_neg h]
    simp
  | cons y w ih =>
    intro s
    simp only [List.cons_append, evictFront, List.append_eq]
    by_cases h : y + (w ++ [x]).sum > a
    · rw [if_pos h]
      exact ih (s + 1)
    · rw [if_neg h]
      simp

theorem evictFront_over (a x : Nat) (hx : a < x) :
    ∀ (w : List Nat) (s : Nat), evictFront a (w ++ [x]) s = ([], s + w.length + 1) := by
  intro w
  induction w with
  | nil =>
    intro s
    have h : x + List.sum ([] : List Nat) > a := by simpa using hx
    simp only [List.nil_append, evictFront]
    rw [if_pos h]
    simp [evictFront]
  | cons y w ih =>
    intro s
    have h : y + (w ++ [x]).sum > a := by
      have hsum : (w ++ [x]).sum = w.sum + x := by simp
      omega
    simp only [List.cons_append, evictFront, List.append_eq]
    rw [if_pos h, ih (s + 1)]
    have h2 : s + 1 + w.length + 1 = s + (y :: w).length + 1 := by
      simp only [List.length_cons]
      omega
    rw [h2]

theorem takeFit_le_length (a : Nat) :
    ∀ (xs : List Nat) (acc : Nat), takeFit a acc xs ≤ xs.length := by
  intro xs
  induction xs with
  | nil => intro acc; simp [takeFit]
  | cons x xs ih =>
    intro acc
    by_cases h : acc + x > a
    · simp [takeFit, h]
    · simp [takeFit, h]
      exact ih (acc + x)

theorem takeFit_sum_le (a : Nat) :
    ∀ (xs : List Nat) (acc : Nat), acc ≤ a →
      acc + (xs.take (takeFit a acc xs)).sum ≤ a := by
  intro xs
  induction xs with
  | nil => intro acc h; simpa [takeFit] using h
  | cons x xs ih =>
    intro acc h
    by_cases hx : acc + x > a
    · simpa [takeFit, hx] using h
    · have := ih (acc + x) (by omega)
      simp [takeFit, hx]
      omega

theorem takeFit_stop (a : Nat) :
    ∀ (xs : List Nat) (acc j y : Nat), xs[j]? = some y → a < y →
      takeFit a acc xs ≤ j := by
  intro xs
  induction xs with
  | nil => intro acc j y hj _; simp at hj
  | cons x xs ih =>
    intro acc j y hj hy
    match j with
    | 0 =>
      have hx : x = y := by simpa using hj
      have h : acc + x > a := by omega
      simp [takeFit, h]
    | j + 1 =>
      by_cases h : acc + x > a
      · simp [takeFit, h]
      · have := ih (acc + x) j y (by simpa using hj) hy
        simp [takeFit, h]
        omega

/-- The element Rust reads as `visible[end]` is the head of `rest`. -/
theorem window_head_of_rest {hs window rest : List Nat} {start x : Nat}
    (hinv : window ++ x :: rest = hs.drop start) :
    hs[start + window.length]? = some x := by
  have h1 : (hs.drop start)[window.length]? = hs[start + window.length]? :=
    List.getElem?_drop hs start window.length
  rw [← h1, ← hinv]
  rw [List.getElem?_append_right (Nat.le_refl window.length)]
  simp

theorem slide_spec (a sel : Nat) (hs : List Nat) :
    ∀ (rest window : List Nat) (start e : Nat),
      window ++ rest = hs.drop start →
      e = start + window.length →
      window.sum ≤ a →
      e ≤ hs.length →
      sel < hs.length →
      (slide a sel start e window rest).2 ≤ hs.length ∧
      (slide a sel start e window rest).1 ≤ (slide a sel start e window rest).2 ∧
      ((hs.drop (slide a sel start e window rest).1).take
        ((slide a sel start e window rest).2 -
          (slide a sel start e window rest).1)).sum ≤ a ∧
      sel < (slide a sel start e window rest).2 := by
  intro rest
  induction rest with
  | nil =>
    intro window start e hinv hend hsum hle hsel
    have hlen : window.length = hs.length - start := by
      have := congrArg List.length hinv
      simpa using this
    have hwin : window = hs.drop start := by simpa using hinv
    have hstart : start ≤ hs.length := by omega
    have he : e = hs.length := by omega
    refine ⟨by simp [slide]; omega, by simp [slide]; omega, ?_, by simp [slide]; omega⟩
    simp only [slide]
    rw [hend, Nat.add_sub_cancel_left, ← hwin, ← List.take_length (l := window)]
    simpa using hsum
  | cons x rest ih =>
    intro window start e hinv hend hsum hle hsel
    have hlen : window.length + (rest.length + 1) = hs.length - start := by
      have := congrArg List.length hinv
      simp at this
      omega
    by_cases hge : sel ≥ e
    · -- the outer while loop runs: absorb x, evict, recurse
      obtain ⟨k, hk, hevict⟩ := evictFront_eq_drop a (window ++ [x]) start
      have hklen : k ≤ window.length + 1 := by simpa using hk
      have hinv' : (window ++ [x]).drop k ++ rest = hs.drop (start + k) := by
        have h1 : hs.drop (start + k) = (hs.drop start).drop k := by
          rw [List.drop_drop]
        rw [h1, ← hinv]
        have h2 : window ++ x :: rest = (window ++ [x]) ++ rest := by simp
        rw [h2, List.drop_append_of_le_length hk]
      have hend' : e + 1 = (start + k) + ((window ++ [x]).drop k).length := by
        have : ((window ++ [x]).drop k).length = window.length + 1 - k := by
          simp [List.length_drop]
        omega
      have hsum' : ((window ++ [x]).drop k).sum ≤ a := by
        have := evictFront_sum_le a (window ++ [x]) start
        rw [hevict] at this
        exact this
      have hle' : e + 1 ≤ hs.length := by omega
      have hrec := ih ((window ++ [x]).drop k) (start + k) (e + 1)
        hinv' hend' hsum' hle' hsel
      have hstep : slide a sel start e window (x :: rest) =
          slide a sel (start + k) (e + 1) ((window ++ [x]).drop k) rest := by
        simp [slide, hge, hevict]
      rw [hstep]
      exact hrec
    · -- selection already inside the window: exit immediately
      have hexit : slide a sel start e window (x :: rest) = (start, e) := by
        simp [slide, hge]
      rw [hexit]
      refine ⟨hle, by omega, ?_, by omega⟩
      have hwin : (hs.drop start).take (e - start) = window := by
        rw [← hinv, hend, Nat.add_sub_cancel_left]
        exact List.take_left window (x :: rest)
      simpa [hwin] using hsum

theorem slide_start_le (a sel : Nat) (hs : List Nat) (hsel : Nat)
    (hget : hs[sel]? = some hsel) (hfit : hsel ≤ a) :
    ∀ (rest window : List Nat) (start e : Nat),
      window ++ rest = hs.drop start →
      e = start + window.length →
      start ≤ sel →
      (slide a sel start e window rest).1 ≤ sel := by
  intro rest
  induction rest with
  | nil =>
    intro window start e _ _ hstart
    simpa [slide] using hstart
  | cons x rest ih =>
    intro window start e hinv hend hstart
    by_cases hge : sel ≥ e
    · obtain ⟨k, hk, hevict⟩ := evictFront_eq_drop a (window ++ [x]) start
      have hklen : k ≤ window.length + 1 := by simpa using hk
      have hinv' : (window ++ [x]).drop k ++ rest = hs.drop (start + k) := by
        have h1 : hs.drop (start + k) = (hs.drop start).drop k := by
          rw [List.drop_drop]
        rw [h1, ← hinv]
        have h2 : window ++ x :: rest = (window ++ [x]) ++ rest := by simp
        rw [h2, List.drop_append_of_le_length hk]
      have hend' : e + 1 = (start + k) + ((window ++ [x]).drop k).length := by
        have : ((window ++ [x]).drop k).length = window.length + 1 - k := by
          simp [List.length_drop]
        omega
      have hstart' : start + k ≤ sel := by
        rcases Nat.lt_or_ge sel (e + 1) with hcase | hcase
        · -- final iteration: e = sel, the absorbed entry is the selected one
          have hesel : e = sel := by omega
          have hx : x = hsel := by
            have := window_head_of_rest hinv
            rw [← hend, hesel, hget] at this
            exact (Option.some.inj this).symm
          have hne := evictFront_last_ne_nil a x (by omega) window start
          rw [hevict] at hne
          have : k ≤ window.length := by
            by_contra hgt
            have hkeq : k = window.length + 1 := by omega
            apply hne
            rw [hkeq]
            simp
          omega
        · omega
      have hstep : slide a sel start e window (x :: rest) =
          slide a sel (start + k) (e + 1) ((window ++ [x]).drop k) rest := by
        simp [slide, hge, hevict]
      rw [hstep]
      exact ih ((window ++ [x]).drop k) (start + k) (e + 1) hinv' hend' hstart'
    · simpa [slide, hge] using hstart

theorem slide_over (a sel : Nat) (hs : List Nat) (hsel : Nat)
    (hget : hs[sel]? = some hsel) (hover : a < hsel) :
    ∀ (rest window : List Nat) (start e : Nat),
      window ++ rest = hs.drop start →
      e = start + window.length →
      e ≤ sel →
      sel < hs.length →
      slide a sel start e window rest = (sel + 1, sel + 1) := by
  intro rest
  induction rest with
  | nil =>
    intro window start e hinv hend hesel hlt
    exfalso
    have hlen : window.length = hs.length - start := by
      have := congrArg List.length hinv
      simpa using this
    omega
  | cons x rest ih =>
    intro window start e hinv hend hesel hlt
    have hge : sel ≥ e := hesel
    rcases Nat.lt_or_ge e sel with hcase | hcase
    · -- not yet at the selected entry
      obtain ⟨k, hk, hevict⟩ := evictFront_eq_drop a (window ++ [x]) start
      have hinv' : (window ++ [x]).drop k ++ rest = hs.drop (start + k) := by
        have h1 : hs.drop (start + k) = (hs.drop start).drop k := by
          rw [List.drop_drop]
        rw [h1, ← hinv]
        have h2 : window ++ x :: rest = (window ++ [x]) ++ rest := by simp
        rw [h2, List.drop_append_of_le_length hk]
      have hklen : k ≤ window.length + 1 := by simpa using hk
      have hend' : e + 1 = (start + k) + ((window ++ [x]).drop k).length := by
        have : ((window ++ [x]).drop k).length = window.length + 1 - k := by
          simp [List.length_drop]
        omega
      have hstep : slide a sel start e window (x :: rest) =
          slide a sel (start + k) (e + 1) ((window ++ [x]).drop k) rest := by
        simp [slide, hge, hevict]
      rw [hstep]
      exact ih ((window ++ [x]).drop k) (start + k) (e + 1) hinv' hend' (by omega) hlt
    · -- e = sel: the absorbed entry is the over-tall selected one; evict all
      have hesel' : e = sel := by omega
      have hx : x = hsel := by
        have := window_head_of_rest hinv
        rw [← hend, hesel', hget] at this
        exact (Option.some.inj this).symm
      have hevict := evictFront_over a x (by omega) window start
      have hstep : slide a sel start e window (x :: rest) =
          slide a sel (start + window.length + 1) (e + 1) [] rest := by
        simp [slide, hge, hevict]
      rw [hstep]
      have h1 : start + window.length + 1 = sel + 1 := by omega
      have h2 : e + 1 = sel + 1 := by omega
      rw [h1, h2]
      cases rest with
      | nil => simp [slide]
      | cons y rest' => simp [slide]

/-- Full behaviour of the viewport windower when the selection resolves
to index `sel` carrying row-height `hsel`: the window's cumulative
height never exceeds the budget, the window lies inside the sequence,
and the selected entry lies strictly inside the window exactly when its
own height fits the budget — when it is taller than the budget the
window collapses to the empty range `(sel + 1, sel + 1)`. -/
theorem computeWindow_spec (hs : List Nat) (a off sel hsel : Nat)
    (hget : hs[sel]? = some hsel) :
    ((hs.drop (computeWindow hs a off sel).1).take
      ((computeWindow hs a off sel).2 - (computeWindow hs a off sel).1)).sum ≤ a ∧
    (computeWindow hs a off sel).2 ≤ hs.length ∧
    (computeWindow hs a off sel).1 ≤ (computeWindow hs a off sel).2 ∧
    sel < (computeWindow hs a off sel).2 ∧
    (hsel ≤ a → (computeWindow hs a off sel).1 ≤ sel) ∧
    (a < hsel → computeWindow hs a off sel = (sel + 1, sel + 1)) := by
  have hlt : sel < hs.length := by
    obtain ⟨h, _⟩ := List.getElem?_eq_some.1 hget
    exact h
  have hstart : min off sel ≤ sel := Nat.min_le_right off sel
  have hks : takeFit a 0 (hs.drop (min off sel)) ≤ (hs.drop (min off sel)).length :=
    takeFit_le_length a (hs.drop (min off sel)) 0
  have hinv :
      (hs.drop (min off sel)).take (takeFit a 0 (hs.drop (min off sel))) ++
        (hs.drop (min off sel)).drop (takeFit a 0 (hs.drop (min off sel))) =
      hs.drop (min off sel) :=
    List.take_append_drop _ _
  have hend : min off sel + takeFit a 0 (hs.drop (min off sel)) =
      min off sel +
        ((hs.drop (min off sel)).take (takeFit a 0 (hs.drop (min off sel)))).length := by
    rw [List.length_take]
    omega
  have hsum :
      ((hs.drop (min off sel)).take (takeFit a 0 (hs.drop (min off sel)))).sum ≤ a := by
    have := takeFit_sum_le a (hs.drop (min off sel)) 0 (Nat.zero_le a)
    simpa using this
  have hle : min off sel + takeFit a 0 (hs.drop (min off sel)) ≤ hs.length := by
    have : (hs.drop (min off sel)).length = hs.length - min off sel := by
      simp [List.length_drop]
    omega
  have hmain := slide_spec a sel hs
    ((hs.drop (min off sel)).drop (takeFit a 0 (hs.drop (min off sel))))
    ((hs.drop (min off sel)).take (takeFit a 0 (hs.drop (min off sel))))
    (min off sel) (min off sel + takeFit a 0 (hs.drop (min off sel)))
    hinv hend hsum hle hlt
  refine ⟨hmain.2.2.1, hmain.1, hmain.2.1, hmain.2.2.2, ?_, ?_⟩
  · intro hfit
    exact slide_start_le a sel hs hsel hget hfit
      ((hs.drop (min off sel)).drop (takeFit a 0 (hs.drop (min off sel))))
      ((hs.drop (min off sel)).take (takeFit a 0 (hs.drop (min off sel))))
      (min off sel) (min off sel + takeFit a 0 (hs.drop (min off sel)))
      hinv hend hstart
  · intro hover
    have hstop : takeFit a 0 (hs.drop (min off sel)) ≤ sel - min off sel := by
      apply takeFit_stop a (hs.drop (min off sel)) 0 (sel - min off sel) hsel _ hover
      rw [List.getElem?_drop]
      rw [Nat.add_sub_cancel' hstart]
      exact hget
    exact slide_over a sel hs hsel hget hover
      ((hs.drop (min off sel)).drop (takeFit a 0 (hs.drop (min off sel))))
      ((hs.drop (min off sel)).take (takeFit a 0 (hs.drop (min off sel))))
      (min off sel) (min off sel + takeFit a 0 (hs.drop (min off sel)))
      hinv hend (by omega) hlt

/-! ## Characterisation of the flattener -/

theorem TreeItem.induct {A : Type} {motive : TreeItem A → Prop}
    (h : ∀ e cs, (∀ c ∈ cs, motive c) → motive (TreeItem.node e cs)) :
    ∀ t, motive t
  | .node e cs => h e cs (fun c hc => TreeItem.induct h c)
termination_by t => sizeOf t
decreasing_by
  simp_wf
  have := List.sizeOf_lt_of_mem hc
  omega

theorem resolveIn_append {A : Type} :
    ∀ (p : List Nat) (t : TreeItem A) (q : List Nat),
      resolveIn t (p ++ q) = (resolveIn t p).bind (fun u => resolveIn u q) := by
  intro p
  induction p with
  | nil => intro t q; simp [resolveIn]
  | cons i p ih =>
    intro t q
    simp only [List.cons_append, resolveIn]
    cases hc : t.children[i]? with
    | none => simp only [hc]; rfl
    | some c => simp only [hc]; exact ih c q

theorem resolve_append {A : Type} (ts : List (TreeItem A)) :
    ∀ (p q : List Nat), p ≠ [] →
      resolve ts (p ++ q) = (resolve ts p).bind (fun u => resolveIn u q) := by
  intro p q hp
  match p with
  | [] => exact absurd rfl hp
  | i :: p =>
    simp only [List.cons_append, resolve]
    cases hc : ts[i]? with
    | none => simp only [hc]; rfl
    | some t => simp only [hc]; exact resolveIn_append p t q

theorem mem_flattenForest_iff_of_ih {A : Type} (E : Finset TreeIdentifierVec)
    (x : Flattened A) :
    ∀ (ts : List (TreeItem A)),
      (∀ t ∈ ts, ∀ (ident : TreeIdentifierVec) (d : Nat),
        x ∈ flattenNode E ident d t ↔
          ∃ q, resolveIn t q = some x.item ∧ x.identifier = ident ++ q ∧
            x.depth = d + q.length ∧ ∀ r, r <+: q → r ≠ q → ident ++ r ∈ E) →
      ∀ (pre : TreeIdentifierVec) (d idx : Nat),
        x ∈ flattenForest E pre d idx ts ↔
          ∃ j t q, ts[j]? = some t ∧ resolveIn t q = some x.item ∧
            x.identifier = pre ++ [idx + j] ++ q ∧ x.depth = d + q.length ∧
            ∀ r, r <+: q → r ≠ q → pre ++ [idx + j] ++ r ∈ E := by
  intro ts
  induction ts with
  | nil =>
    intro _ pre d idx
    simp [flattenForest]
  | cons t ts ih =>
    intro hih pre d idx
    have hmem := hih t (List.mem_cons_self t ts) (pre ++ [idx]) d
    have hrest := ih (fun u hu => hih u (List.mem_cons_of_mem t hu)) pre d (idx + 1)
    simp only [flattenForest, List.mem_append]
    rw [hmem, hrest]
    constructor
    · rintro (⟨q, h1, h2, h3, h4⟩ | ⟨j, u, q, hj, h1, h2, h3, h4⟩)
      · refine ⟨0, t, q, by simp, h1, by simpa using h2, h3, ?_⟩
        intro r hr hrq
        simpa using h4 r hr hrq
      · refine ⟨j + 1, u, q, by simpa using hj, h1, ?_, h3, ?_⟩
        · rw [h2]
          have heq : idx + 1 + j = idx + (j + 1) := by omega
          rw [heq]
        · intro r hr hrq
          have hres := h4 r hr hrq
          have heq : idx + 1 + j = idx + (j + 1) := by omega
          rwa [heq] at hres
    · rintro ⟨j, u, q, hj, h1, h2, h3, h4⟩
      match j with
      | 0 =>
        left
        have hu : t = u := by simpa using hj
        subst hu
        refine ⟨q, h1, by simpa using h2, h3, ?_⟩
        intro r hr hrq
        simpa using h4 r hr hrq
      | j + 1 =>
        right
        refine ⟨j, u, q, by simpa using hj, h1, ?_, h3, ?_⟩
        · rw [h2]
          have heq : idx + (j + 1) = idx + 1 + j := by omega
          rw [heq]
        · intro r hr hrq
          have hres := h4 r hr hrq
          have heq : idx + (j + 1) = idx + 1 + j := by omega
          rwa [heq] at hres

theorem mem_flattenNode_iff {A : Type} (E : Finset TreeIdentifierVec)
    (x : Flattened A) (t : TreeItem A) :
    ∀ (ident : TreeIdentifierVec) (d : Nat),
      x ∈ flattenNode E ident d t ↔
        ∃ q, resolveIn t q = some x.item ∧ x.identifier = ident ++ q ∧
          x.depth = d + q.length ∧ ∀ r, r <+: q → r ≠ q → ident ++ r ∈ E := by
  induction t using TreeItem.induct with
  | h e cs ihc =>
    intro ident d
    by_cases hE : ident ∈ E
    · simp only [flattenNode, if_pos hE, List.mem_cons]
      rw [mem_flattenForest_iff_of_ih E x cs (fun c hc => ihc c hc) ident (d + 1) 0]
      constructor
      · rintro (hx | ⟨j, u, q, hj, h1, h2, h3, h4⟩)
        · subst hx
          refine ⟨[], rfl, by simp, by simp, ?_⟩
          intro r hr hrq
          rw [List.prefix_nil] at hr
          exact absurd hr hrq
        · refine ⟨j :: q, ?_, ?_, ?_, ?_⟩
          · show resolveIn (TreeItem.node e cs) (j :: q) = some x.item
            simp only [resolveIn, TreeItem.children]
            have hj' : cs[j]? = some u := by simpa using hj
            simp only [hj']
            exact h1
          · rw [h2]; simp
          · simp only [List.length_cons, h3]; omega
          · intro r hr hrq
            match r with
            | [] => simpa using hE
            | r0 :: r =>
              rw [List.cons_prefix_cons] at hr
              obtain ⟨rfl, hr⟩ := hr
              have hne : r ≠ q := fun hh => hrq (by rw [hh])
              simpa using h4 r hr hne
      · rintro ⟨q, h1, h2, h3, h4⟩
        match q with
        | [] =>
          left
          simp only [resolveIn] at h1
          have hitem := Option.some.inj h1
          simp only [List.append_nil] at h2
          simp only [List.length_nil, Nat.add_zero] at h3
          cases x with
          | mk xid xd xit =>
            rw [Flattened.mk.injEq]
            exact ⟨h2, h3, hitem.symm⟩
        | j :: q =>
          right
          simp only [resolveIn, TreeItem.children] at h1
          cases hcs : cs[j]? with
          | none =>
            simp only [hcs] at h1
            exact Option.noConfusion h1
          | some c =>
            simp only [hcs] at h1
            refine ⟨j, c, q, by simpa using hcs, h1, by rw [h2]; simp, ?_, ?_⟩
            · simp only [List.length_cons] at h3; omega
            · intro r hr hrq
              have hjr : (j :: r) ≠ (j :: q) := by
                intro hh
                injection hh with hh1 hh2
                exact hrq hh2
              have hres := h4 (j :: r) (List.cons_prefix_cons.2 ⟨rfl, hr⟩) hjr
              simpa using hres
    · simp only [flattenNode, if_neg hE, List.mem_cons, List.not_mem_nil, or_false]
      constructor
      · intro hx
        subst hx
        refine ⟨[], rfl, by simp, by simp, ?_⟩
        intro r hr hrq
        rw [List.prefix_nil] at hr
        exact absurd hr hrq
      · rintro ⟨q, h1, h2, h3, h4⟩
        match q with
        | [] =>
          simp only [resolveIn] at h1
          have hitem := Option.some.inj h1
          simp only [List.append_nil] at h2
          simp only [List.length_nil, Nat.add_zero] at h3
          cases x with
          | mk xid xd xit =>
            rw [Flattened.mk.injEq]
            exact ⟨h2, h3, hitem.symm⟩
        | j :: q =>
          exfalso
          have hres := h4 [] List.nil_prefix (by simp)
          simp only [List.append_nil] at hres
          exact hE hres

/-- The membership characterisation of `flatten`: an entry appears in
the flattened output exactly when `emittedSpec` holds of it. -/
theorem mem_flatten_iff {A : Type} (E : Finset TreeIdentifierVec)
    (ts : List (TreeItem A)) (x : Flattened A) :
    x ∈ flatten E ts ↔ emittedSpec E ts x := by
  unfold flatten emittedSpec
  rw [mem_flattenForest_iff_of_ih E x ts
    (fun t _ => mem_flattenNode_iff E x t) [] 0 0]
  constructor
  · rintro ⟨j, t, q, hj, h1, h2, h3, h4⟩
    have hid : x.identifier = j :: q := by simpa using h2
    have hj' : ts[j]? = some t := by simpa using hj
    refine ⟨?_, by simp [hid], ?_, ?_⟩
    · rw [hid]
      simp only [resolve, hj']
      exact h1
    · rw [hid]
      simp only [List.length_cons, h3]
      omega
    · intro r hr hrne hrq
      rw [hid] at hr hrq
      match r with
      | [] => exact absurd rfl hrne
      | r0 :: r =>
        rw [List.cons_prefix_cons] at hr
        obtain ⟨rfl, hr⟩ := hr
        have hne : r ≠ q := fun hh => hrq (by rw [hh])
        simpa using h4 r hr hne
  · rintro ⟨h1, h2, h3, h4⟩
    cases hxid : x.identifier with
    | nil => exact absurd hxid h2
    | cons j q =>
      rw [hxid] at h1
      simp only [resolve] at h1
      cases hts : ts[j]? with
      | none =>
        simp only [hts] at h1
        exact Option.noConfusion h1
      | some t =>
        simp only [hts] at h1
        refine ⟨j, t, q, by simpa using hts, h1, by simp, ?_, ?_⟩
        · rw [hxid] at h3
          simp only [List.length_cons] at h3
          omega
        · intro r hr hrne
          have hres := h4 (j :: r) (by rw [hxid]; exact List.cons_prefix_cons.2 ⟨rfl, hr⟩)
            (by simp) (by rw [hxid]; intro hh; exact hrne (by injection hh))
          simpa using hres

/-! ## Claims -/

/-- C1 as stated is false: with a single selected entry of row-height 5
and row budget 3 the render pass computes the window `(1, 1)` — the
over-tall entry is evicted from the window rather than kept as its sole
member, so the selected index 0 is not inside `[start, end)` and
`start + 1 = end` fails. -/
theorem claim_C1_counterexample :
    computeWindow [5] 3 0 0 = (1, 1) ∧
    ¬ ((computeWindow [5] 3 0 0).1 ≤ 0 ∧ 0 < (computeWindow [5] 3 0 0).2 ∧
       (computeWindow [5] 3 0 0).1 + 1 = (computeWindow [5] 3 0 0).2) := by
  decide

/-- C1 amended: for every height sequence, row budget ≥ 1 and selection
resolving to index `selIdx` (of height `hsel`), the window computed by
the render pass has cumulative row-height never exceeding the budget
and ends within the sequence; when the selected entry fits the budget
it satisfies `start ≤ selIdx < end`, and when its height alone exceeds
the budget the window instead collapses to the empty range
`(selIdx + 1, selIdx + 1)` — the entry is dropped, not kept as the sole
member. -/
theorem claim_C1_amended (heights : List Nat) (budget offset selIdx hsel : Nat)
    (hbudget : 1 ≤ budget) (hget : heights[selIdx]? = some hsel) :
    ((heights.drop (computeWindow heights budget offset selIdx).1).take
      ((computeWindow heights budget offset selIdx).2 -
        (computeWindow heights budget offset selIdx).1)).sum ≤ budget ∧
    (computeWindow heights budget offset selIdx).2 ≤ heights.length ∧
    (hsel ≤ budget →
      (computeWindow heights budget offset selIdx).1 ≤ selIdx ∧
      selIdx < (computeWindow heights budget offset selIdx).2) ∧
    (budget < hsel →
      computeWindow heights budget offset selIdx = (selIdx + 1, selIdx + 1)) := by
  obtain ⟨h1, h2, _, h4, h5, h6⟩ :=
    computeWindow_spec heights budget offset selIdx hsel hget
  exact ⟨h1, h2, fun h => ⟨h5 h, h4⟩, h6⟩

/-- Witness for the amended C1 at the Scenario C inputs. -/
theorem claim_C1_witness :
    ((([1, 1, 1, 1, 1] : List Nat).drop
        (computeWindow [1, 1, 1, 1, 1] 3 0 4).1).take
      ((computeWindow [1, 1, 1, 1, 1] 3 0 4).2 -
        (computeWindow [1, 1, 1, 1, 1] 3 0 4).1)).sum ≤ 3 :=
  (claim_C1_amended [1, 1, 1, 1, 1] 3 0 4 1 (by decide) (by decide)).1

/-- C3 as stated is false: rendering a single 5-line item (taller than
the 3-row budget) moves the offset to 1 although the selection `[0]`
resolves to index 0 — after the render pass `offset ≤ selectedIndex`
fails. -/
theorem claim_C3_counterexample :
    ((flatten (∅ : Finset TreeIdentifierVec) [TreeItem.node (5 : Nat) []]).findIdx?
        (fun o => o.identifier = [0])).getD 0 = 0 ∧
    (renderTree (fun n => n) [TreeItem.node (5 : Nat) []] 10 3 ⟨0, ∅, [0]⟩).offset = 1 := by
  decide

/-- C3 amended: after the render pass `offset ≤ selectedIndex` holds
whenever a selection exists, the flattened sequence is non-empty, the
area is non-degenerate and the selected entry's own height does not
exceed the row budget; and the offset is reset to 0 whenever the
selection is set to the empty identifier — directly by `select`, and
hence by `select_last` on an empty tree. -/
theorem claim_C3_amended {A : Type} (textHeight : A → Nat) (items : List (TreeItem A))
    (width height : Nat) (s : TreeState) (hsel : Nat)
    (hw : 1 ≤ width) (hh : 1 ≤ height)
    (hne : (flatten s.opened items).isEmpty = false)
    (hselne : s.selected ≠ [])
    (hget : ((flatten s.opened items).map (fun o => o.item.height textHeight))[
        ((flatten s.opened items).findIdx? (fun o => o.identifier = s.selected)).getD 0]? =
      some hsel)
    (hfit : hsel ≤ height) :
    (renderTree textHeight items width height s).offset ≤
      ((flatten s.opened items).findIdx? (fun o => o.identifier = s.selected)).getD 0 ∧
    (∀ t : TreeState, (t.select []).offset = 0) ∧
    (∀ t : TreeState, (t.select_last ([] : List (TreeItem A))).offset = 0) := by
  refine ⟨?_, ?_, ?_⟩
  · have hw' : ¬ (width = 0 ∨ height = 0) := by omega
    have hspec := computeWindow_spec
      ((flatten s.opened items).map (fun o => o.item.height textHeight)) height s.offset
      (((flatten s.opened items).findIdx? (fun o => o.identifier = s.selected)).getD 0)
      hsel hget
    have hoff : (renderTree textHeight items width height s).offset =
        (computeWindow ((flatten s.opened items).map (fun o => o.item.height textHeight))
          height s.offset
          (((flatten s.opened items).findIdx?
            (fun o => o.identifier = s.selected)).getD 0)).1 := by
      simp [renderTree, hw', hne, hselne]
    rw [hoff]
    exact hspec.2.2.2.2.1 hfit
  · intro t
    simp [TreeState.select]
  · intro t
    simp [TreeState.select_last, TreeState.select, flatten, flattenForest]

/-- Witness for the amended C3: two unit-height leaves, selection on
the second, budget 3 — the offset stays at or before the selected
index. -/
theorem claim_C3_witness :
    (renderTree (fun n => n) [TreeItem.node (1 : Nat) [], TreeItem.node 1 []] 10 3
      ⟨0, ∅, [1]⟩).offset ≤
      ((flatten (∅ : Finset TreeIdentifierVec)
          [TreeItem.node (1 : Nat) [], TreeItem.node 1 []]).findIdx?
        (fun o => o.identifier = [1])).getD 0 :=
  (claim_C3_amended (fun n => n) [TreeItem.node (1 : Nat) [], TreeItem.node 1 []] 10 3
    ⟨0, ∅, [1]⟩ 1 (by decide) (by decide) (by decide) (by decide) (by decide)
    (by decide)).1

/-- C5: for a flattened sequence of 5 visible entries each of
row-height 1, row budget 3, previous offset 0 and selected index 4,
the viewport windower returns the window `(2, 5)` — both as the bare
window computation and through the full render pass on a five-leaf
tree with the selection on the last leaf. -/
theorem claim_C5 :
    computeWindow [1, 1, 1, 1, 1] 3 0 4 = (2, 5) ∧
    (renderTree (fun _ => 1)
      [TreeItem.node (0 : Nat) [], .node 1 [], .node 2 [], .node 3 [], .node 4 []]
      10 3 ⟨0, ∅, [4]⟩).offset = 2 := by
  decide

/-- C8: `open` on the empty identifier is a no-op returning `false`;
on a non-empty identifier it inserts it into the expanded-set and
returns `true` exactly when the identifier was not already present;
`close` removes the identifier and returns `true` exactly when it was
present. -/
theorem claim_C8 (s : TreeState) (id : TreeIdentifierVec) :
    (id = [] → s.openNode id = (false, s)) ∧
    (id ≠ [] → (s.openNode id).2.opened = insert id s.opened ∧
      ((s.openNode id).1 = true ↔ id ∉ s.opened)) ∧
    (s.close id).2.opened = s.opened.erase id ∧
    ((s.close id).1 = true ↔ id ∈ s.opened) := by
  refine ⟨fun h => ?_, fun h => ?_, ?_, ?_⟩
  · simp [TreeState.openNode, h]
  · simp [TreeState.openNode, h]
  · simp [TreeState.close]
  · simp [TreeState.close]

/-- Witness for C8 at concrete inputs: the empty identifier on a
default-like state, and a fresh non-empty identifier. -/
theorem claim_C8_witness :
    TreeState.openNode ⟨0, ∅, []⟩ [] = (false, ⟨0, ∅, []⟩) ∧
    (TreeState.openNode ⟨0, ∅, []⟩ [2]).2.opened =
      insert [2] (∅ : Finset TreeIdentifierVec) :=
  ⟨(claim_C8 ⟨0, ∅, []⟩ []).1 rfl,
   ((claim_C8 ⟨0, ∅, []⟩ [2]).2.1 (by decide)).1⟩

/-- C7 as stated is false: on a state whose expanded-set already
contains `[0]`, `open [0]` (a no-op returning `false`) followed by
`close [0]` removes `[0]`, so the membership of `[0]` is not restored
to its prior state. -/
theorem claim_C7_counterexample :
    ¬ (([0] ∈ ((TreeState.openNode ⟨0, {[0]}, []⟩ [0]).2.close [0]).2.opened) ↔
       ([0] ∈ ({[0]} : Finset TreeIdentifierVec))) := by
  decide

/-- C7 amended: `open id` then `close id` on a non-empty identifier
always leaves the expanded-set equal to the prior set with `id`
removed, hence restores the membership of `id` exactly when `id` was
not already present; `toggle` twice restores the expanded-set for
every non-empty identifier, and for the empty identifier as well
whenever the empty identifier is not in the expanded-set (which the
`open` API guarantees for every reachable state). -/
theorem claim_C7_amended_thm (s : TreeState) (id : TreeIdentifierVec) :
    (id ≠ [] → ((s.openNode id).2.close id).2.opened = s.opened.erase id) ∧
    (id ≠ [] → id ∉ s.opened →
      ((id ∈ ((s.openNode id).2.close id).2.opened) ↔ id ∈ s.opened)) ∧
    (id ≠ [] → ((s.toggle id).toggle id).opened = s.opened) ∧
    ([] ∉ s.opened → ((s.toggle []).toggle []).opened = s.opened) := by
  refine ⟨fun h => ?_, fun h h' => ?_, fun h => ?_, fun h => ?_⟩
  · simp [TreeState.openNode, TreeState.close, h, Finset.erase_insert_eq_erase]
  · simp [TreeState.openNode, TreeState.close, h, Finset.erase_insert_eq_erase, h']
  · by_cases hm : id ∈ s.opened
    · have e1 : s.toggle id = { s with opened := s.opened.erase id } := by
        simp [TreeState.toggle, TreeState.close, hm]
      rw [e1]
      have hm2 : id ∉ s.opened.erase id := Finset.not_mem_erase id s.opened
      simp [TreeState.toggle, TreeState.openNode, h, hm2, Finset.insert_erase hm]
    · have e1 : s.toggle id = { s with opened := insert id s.opened } := by
        simp [TreeState.toggle, TreeState.openNode, hm, h]
      rw [e1]
      simp [TreeState.toggle, TreeState.close, Finset.erase_insert hm]
  · have e1 : s.toggle [] = s := by
      simp [TreeState.toggle, TreeState.openNode, h]
    rw [e1, e1]

/-- Witness for the amended C7 at a concrete state and identifier. -/
theorem claim_C7_amended_witness :
    ((TreeState.openNode ⟨0, ∅, []⟩ [0]).2.close [0]).2.opened =
      (∅ : Finset TreeIdentifierVec).erase [0] :=
  (claim_C7_amended_thm ⟨0, ∅, []⟩ [0]).1 (by decide)

/-- C6: `key_left` first attempts to close the selection.  When the
selection was expanded (close returns `true`), the selection and the
offset are unchanged and the expanded-set loses the selection;
otherwise the expanded-set is unchanged and the selection becomes its
parent — the selection with the last path segment dropped, the empty
identifier when the selection had at most one segment. -/
theorem claim_C6 (s : TreeState) :
    (s.selected ∈ s.opened →
      s.key_left.selected = s.selected ∧ s.key_left.offset = s.offset ∧
      s.key_left.opened = s.opened.erase s.selected) ∧
    (s.selected ∉ s.opened →
      s.key_left.opened = s.opened ∧
      s.key_left.selected = s.selected.dropLast ∧
      (s.selected.length ≤ 1 → s.key_left.selected = [])) := by
  constructor
  · intro h
    simp [TreeState.key_left, TreeState.close, h]
  · intro h
    refine ⟨?_, ?_, ?_⟩
    · simp [TreeState.key_left, TreeState.close, h, TreeState.select_opened,
        Finset.erase_eq_self.2 h]
    · simp [TreeState.key_left, TreeState.close, h, get_without_leaf,
        TreeState.select_selected]
    · intro hlen
      simp [TreeState.key_left, TreeState.close, h, get_without_leaf,
        TreeState.select_selected, List.dropLast_of_length_le_one hlen]

/-- Witness for C6: both branches at concrete states — an expanded
selection `[0]`, and an unexpanded two-segment selection `[0, 1]`
(spec §8 Scenario B's ascend-to-parent case). -/
theorem claim_C6_witness :
    (TreeState.key_left ⟨0, {[0]}, [0]⟩).selected = [0] ∧
    (TreeState.key_left ⟨0, ∅, [0, 1]⟩).selected = [0, 1].dropLast :=
  ⟨((claim_C6 ⟨0, {[0]}, [0]⟩).1 (by decide)).1,
   ((claim_C6 ⟨0, ∅, [0, 1]⟩).2 (by decide)).2.1⟩

/-- C10: the stateful render returns early — leaving every field of
the state (offset, expanded-set, selection) unchanged — when the
drawing area has zero width or zero height, or when the flattened
sequence is empty. -/
theorem claim_C10 {A : Type} (textHeight : A → Nat) (items : List (TreeItem A))
    (width height : Nat) (s : TreeState)
    (h : width = 0 ∨ height = 0 ∨ flatten s.opened items = []) :
    renderTree textHeight items width height s = s := by
  unfold renderTree
  rcases h with h | h | h
  · simp [h]
  · simp [h]
  · by_cases hw : width < 1 ∨ height < 1
    · simp [hw, h]
    · simp [hw, h]

/-- C4: on a non-empty flattened sequence, `key_up` (moveUp) and
`key_down` (moveDown) select the entry at index 0 when the current
selection is not found; when found at index `i` they select the entry
at `i - 1` (saturating) resp. `i + 1`, each clamped to
`[0, length - 1]`; consequently `key_up` from the first entry and
`key_down` from the last entry leave the selection unchanged. -/
theorem claim_C4 {A : Type} (s : TreeState) (items : List (TreeItem A))
    (hne : flatten s.opened items ≠ []) :
    ((flatten s.opened items).findIdx? (fun o => o.identifier = s.selected) = none →
      some (s.key_up items).selected =
        ((flatten s.opened items)[0]?).map (fun o => o.identifier) ∧
      some (s.key_down items).selected =
        ((flatten s.opened items)[0]?).map (fun o => o.identifier)) ∧
    (∀ i, (flatten s.opened items).findIdx? (fun o => o.identifier = s.selected) = some i →
      some (s.key_up items).selected =
        ((flatten s.opened items)[min (i - 1) ((flatten s.opened items).length - 1)]?).map
          (fun o => o.identifier) ∧
      some (s.key_down items).selected =
        ((flatten s.opened items)[min (i + 1) ((flatten s.opened items).length - 1)]?).map
          (fun o => o.identifier) ∧
      (i = 0 → (s.key_up items).selected = s.selected) ∧
      (i = (flatten s.opened items).length - 1 →
        (s.key_down items).selected = s.selected)) := by
  have hlen : 0 < (flatten s.opened items).length := List.length_pos.2 hne
  constructor
  · intro hfind
    obtain ⟨o, ho⟩ := exists_get?_of_lt hlen
    constructor
    · simp [TreeState.key_up, hfind, ho, TreeState.select_selected]
    · simp [TreeState.key_down, hfind, ho, TreeState.select_selected]
  · intro i hfind
    have hup : min (i - 1) ((flatten s.opened items).length - 1) <
        (flatten s.opened items).length :=
      Nat.lt_of_le_of_lt
        (Nat.min_le_right (i - 1) ((flatten s.opened items).length - 1)) (by omega)
    have hdown : min (i + 1) ((flatten s.opened items).length - 1) <
        (flatten s.opened items).length :=
      Nat.lt_of_le_of_lt
        (Nat.min_le_right (i + 1) ((flatten s.opened items).length - 1)) (by omega)
    obtain ⟨u, hu⟩ := exists_get?_of_lt hup
    obtain ⟨d, hd⟩ := exists_get?_of_lt hdown
    obtain ⟨x, hx, hpx⟩ := findIdx?_some_get hfind
    have hxid : x.identifier = s.selected := by
      simpa using hpx
    refine ⟨?_, ?_, ?_, ?_⟩
    · simp [TreeState.key_up, hfind, hu, TreeState.select_selected]
    · simp [TreeState.key_down, hfind, hd, TreeState.select_selected]
    · intro h0
      subst h0
      have hmin : min (0 - 1) ((flatten s.opened items).length - 1) = 0 := by simp
      rw [hmin] at hu
      have hux : u = x := by
        rw [hu] at hx; exact Option.some.inj hx
      simp [TreeState.key_up, hfind, hmin, hu, TreeState.select_selected, hux, hxid]
    · intro hl
      subst hl
      have hmin : min ((flatten s.opened items).length - 1 + 1)
          ((flatten s.opened items).length - 1) = (flatten s.opened items).length - 1 :=
        Nat.min_eq_right (Nat.le_succ _)
      rw [hmin] at hd
      have hdx : d = x := by
        rw [hd] at hx; exact Option.some.inj hx
      simp [TreeState.key_down, hfind, hmin, hd, TreeState.select_selected, hdx, hxid]

/-- Witness for C4: the demo tree with an empty (hence unfound)
selection — both keys move to the first visible entry. -/
theorem claim_C4_witness :
    some ((TreeState.key_up ⟨0, ∅, []⟩ demoTree).selected) =
      ((flatten (∅ : Finset TreeIdentifierVec) demoTree)[0]?).map
        (fun o => o.identifier) :=
  ((claim_C4 ⟨0, ∅, []⟩ demoTree
      (List.length_pos.1 (by decide))).1 (by decide)).1

/-- C9: on a non-empty flattened sequence the target index computed by
`key_up` / `key_down` is always within bounds, so the indexing of the
flattened sequence succeeds and both handlers reach the `select` call
(the out-of-bounds branch is unreachable). -/
theorem claim_C9 {A : Type} (s : TreeState) (items : List (TreeItem A))
    (hne : flatten s.opened items ≠ []) :
    (∀ i, (flatten s.opened items).findIdx? (fun o => o.identifier = s.selected) = some i →
      min (i - 1) ((flatten s.opened items).length - 1) < (flatten s.opened items).length ∧
      min (i + 1) ((flatten s.opened items).length - 1) < (flatten s.opened items).length) ∧
    0 < (flatten s.opened items).length ∧
    (∃ o, (flatten s.opened items)[
        (match (flatten s.opened items).findIdx? (fun o => o.identifier = s.selected) with
          | none => 0
          | some i => min (i - 1) ((flatten s.opened items).length - 1))]? = some o ∧
      s.key_up items = s.select o.identifier) ∧
    (∃ o, (flatten s.opened items)[
        (match (flatten s.opened items).findIdx? (fun o => o.identifier = s.selected) with
          | none => 0
          | some i => min (i + 1) ((flatten s.opened items).length - 1))]? = some o ∧
      s.key_down items = s.select o.identifier) := by
  have hlen : 0 < (flatten s.opened items).length := List.length_pos.2 hne
  refine ⟨fun i _ => ⟨?_, ?_⟩, hlen, ?_, ?_⟩
  · exact Nat.lt_of_le_of_lt
      (Nat.min_le_right (i - 1) ((flatten s.opened items).length - 1)) (by omega)
  · exact Nat.lt_of_le_of_lt
      (Nat.min_le_right (i + 1) ((flatten s.opened items).length - 1)) (by omega)
  · cases hfind : (flatten s.opened items).findIdx? (fun o => o.identifier = s.selected) with
    | none =>
      obtain ⟨o, ho⟩ := exists_get?_of_lt hlen
      exact ⟨o, ho, by simp [TreeState.key_up, hfind, ho]⟩
    | some i =>
      have hlt : min (i - 1) ((flatten s.opened items).length - 1) <
          (flatten s.opened items).length :=
        Nat.lt_of_le_of_lt
          (Nat.min_le_right (i - 1) ((flatten s.opened items).length - 1)) (by omega)
      obtain ⟨o, ho⟩ := exists_get?_of_lt hlt
      exact ⟨o, ho, by simp [TreeState.key_up, hfind, ho]⟩
  · cases hfind : (flatten s.opened items).findIdx? (fun o => o.identifier = s.selected) with
    | none =>
      obtain ⟨o, ho⟩ := exists_get?_of_lt hlen
      exact ⟨o, ho, by simp [TreeState.key_down, hfind, ho]⟩
    | some i =>
      have hlt : min (i + 1) ((flatten s.opened items).length - 1) <
          (flatten s.opened items).length :=
        Nat.lt_of_le_of_lt
          (Nat.min_le_right (i + 1) ((flatten s.opened items).length - 1)) (by omega)
      obtain ⟨o, ho⟩ := exists_get?_of_lt hlt
      exact ⟨o, ho, by simp [TreeState.key_down, hfind, ho]⟩

/-- Witness for C9: the demo tree with an empty selection. -/
theorem claim_C9_witness :
    0 < (flatten (∅ : Finset TreeIdentifierVec) demoTree).length :=
  (claim_C9 ⟨0, ∅, []⟩ demoTree (List.length_pos.1 (by decide))).2.1

/-- Witness for C10: a zero-width area with a stale selection and a
non-zero offset; the state (including the offset) is untouched. -/
theorem claim_C10_witness :
    renderTree (fun n => n) [TreeItem.node (1 : Nat) []] 0 7 ⟨3, ∅, [5]⟩ =
      (⟨3, ∅, [5]⟩ : TreeState) :=
  claim_C10 (fun n => n) [TreeItem.node (1 : Nat) []] 0 7 ⟨3, ∅, [5]⟩ (Or.inl rfl)

/-- C2's scenario is false as stated: with the tree `R(a, b(c))` and an
empty expanded-set, `flatten` emits only the root `R` (1 entry, not the
claimed 3 — children are gated on `R`'s own identifier `[0]`), and
opening `[1]` (which is not `b`'s identifier — `b` is at `[0, 1]`)
still yields only `R` (1 entry, not the claimed 4). -/
theorem claim_C2_counterexample :
    ((flatten (∅ : Finset TreeIdentifierVec) demoTree).length = 1 ∧
     (flatten ({[1]} : Finset TreeIdentifierVec) demoTree).length = 1) ∧
    ¬ ((flatten (∅ : Finset TreeIdentifierVec) demoTree).length = 3 ∧
       (flatten ({[1]} : Finset TreeIdentifierVec) demoTree).length = 4) := by
  decide

/-- C2 amended: (1) an entry is emitted by `flatten` iff its identifier
resolves to its item, its depth is one less than its path length, and
every proper non-empty prefix of its identifier is in the expanded-set;
hence (2) every root is emitted as `⟨[j], 0⟩`; (3) for an emitted node
at identifier `p`, its `j`-th child is emitted (at `p + [j]`, depth+1)
iff `p` is in the expanded-set; (4) no descendant of an emitted
collapsed node is ever emitted, even if the descendant's own identifier
is in the expanded-set; and (5) the scenario holds with the corrected
identifiers: `b` is `[0, 1]`, so the four-entry flattening requires
opening `[0]` and `[0, 1]`, with `c` at identifier `[0, 1, 0]`,
depth 2. -/
theorem claim_C2_amended_thm {A : Type} :
    (∀ (E : Finset TreeIdentifierVec) (ts : List (TreeItem A)) (x : Flattened A),
      x ∈ flatten E ts ↔ emittedSpec E ts x) ∧
    (∀ (E : Finset TreeIdentifierVec) (ts : List (TreeItem A)) (j : Nat) (t : TreeItem A),
      ts[j]? = some t → (⟨[j], 0, t⟩ : Flattened A) ∈ flatten E ts) ∧
    (∀ (E : Finset TreeIdentifierVec) (ts : List (TreeItem A)) (x : Flattened A),
      x ∈ flatten E ts → ∀ (j : Nat) (c : TreeItem A), x.item.children[j]? = some c →
        ((⟨x.identifier ++ [j], x.depth + 1, c⟩ : Flattened A) ∈ flatten E ts ↔
          x.identifier ∈ E)) ∧
    (∀ (E : Finset TreeIdentifierVec) (ts : List (TreeItem A)) (x y : Flattened A),
      x ∈ flatten E ts → x.identifier ∉ E → y ∈ flatten E ts →
        x.identifier <+: y.identifier → x.identifier = y.identifier) ∧
    ((flatten (∅ : Finset TreeIdentifierVec) demoTree).map
        (fun e => (e.identifier, e.depth, e.item.elem)) = [([0], 0, "R")] ∧
     (flatten ({[0]} : Finset TreeIdentifierVec) demoTree).map
        (fun e => (e.identifier, e.depth, e.item.elem)) =
          [([0], 0, "R"), ([0, 0], 1, "a"), ([0, 1], 1, "b")] ∧
     (flatten ({[0], [0, 1]} : Finset TreeIdentifierVec) demoTree).map
        (fun e => (e.identifier, e.depth, e.item.elem)) =
          [([0], 0, "R"), ([0, 0], 1, "a"), ([0, 1], 1, "b"), ([0, 1, 0], 2, "c")]) := by
  refine ⟨mem_flatten_iff, ?_, ?_, ?_, by decide⟩
  · intro E ts j t hj
    rw [mem_flatten_iff]
    refine ⟨?_, by simp, by simp, ?_⟩
    · show resolve ts [j] = some t
      simp only [resolve, hj]
      rfl
    · intro r hr hrne hrj
      match r with
      | [] => exact absurd rfl hrne
      | r0 :: r =>
        rw [List.cons_prefix_cons] at hr
        obtain ⟨rfl, hr⟩ := hr
        rw [List.prefix_nil] at hr
        subst hr
        exact absurd rfl hrj
  · intro E ts x hxmem j c hc
    obtain ⟨hres, hne, hlen, hpre⟩ := (mem_flatten_iff E ts x).1 hxmem
    rw [mem_flatten_iff]
    constructor
    · rintro ⟨_, _, _, hpre2⟩
      exact hpre2 x.identifier (by simp) hne (by simp)
    · intro hmem
      refine ⟨?_, by simp, ?_, ?_⟩
      · show resolve ts (x.identifier ++ [j]) = some c
        rw [resolve_append ts x.identifier [j] hne, hres]
        show resolveIn x.item [j] = some c
        simp only [resolveIn, hc]
      · show (x.identifier ++ [j]).length = x.depth + 1 + 1
        simp [hlen]
      · intro r hr hrne hrj
        rcases List.prefix_concat_iff.1 hr with hcase | hcase
        · exact absurd hcase hrj
        · by_cases hrx : r = x.identifier
          · rw [hrx]; exact hmem
          · exact hpre r hcase hrne hrx
  · intro E ts x y hx hnotE hy hpre
    by_contra hne
    obtain ⟨_, hxne, _, _⟩ := (mem_flatten_iff E ts x).1 hx
    obtain ⟨_, _, _, hprey⟩ := (mem_flatten_iff E ts y).1 hy
    exact hnotE (hprey x.identifier hpre hxne hne)

/-- Witness for the amended C2: the root of the demo tree is emitted
with identifier `[0]` and depth 0. -/
theorem claim_C2_witness :
    (⟨[0], 0,
        TreeItem.node "R" [TreeItem.node "a" [], TreeItem.node "b" [TreeItem.node "c" []]]⟩ :
      Flattened String) ∈ flatten (∅ : Finset TreeIdentifierVec) demoTree :=
  (claim_C2_amended_thm (A := String)).2.1 ∅ demoTree 0
    (TreeItem.node "R" [TreeItem.node "a" [], TreeItem.node "b" [TreeItem.node "c" []]]) rfl

end TuiTree
